import Mathlib

/-!
Shallow embedding of `unified_diff_patcher.py`: line-ending detection and
normalization, the unified-diff parser, the hunk applicator, and the
per-file orchestration loop of `main`.  Python strings are modelled as
`List Char`; the ambient `os.linesep` is an explicit parameter.
-/

set_option linter.unusedVariables false

abbrev PyStr := List Char

/-- Coerce a Lean string literal to the `List Char` model of Python strings. -/
def pyS (s : String) : PyStr := s.data

/-- Python `content.count(c)` for a single character `c`. -/
def countChar (c : Char) : PyStr → Nat
  | [] => 0
  | x :: xs => (if x = c then 1 else 0) + countChar c xs

/-- Python `content.count('\r\n')`: non-overlapping occurrences of CRLF. -/
def countCRLF : PyStr → Nat
  | '\r' :: '\n' :: rest => countCRLF rest + 1
  | _ :: rest => countCRLF rest
  | [] => 0

/-- `detect_line_ending(content)` (source lines 57-75).  `linesep` models the
ambient `os.linesep`.  Counts are Python ints, modelled as `Int`. -/
def detect_line_ending (linesep : PyStr) (content : PyStr) : PyStr :=
  if content = [] then linesep
  else
    let crlf_count : Int := countCRLF content
    let lf_count : Int := (countChar '\n' content : Int) - countCRLF content
    let cr_count : Int := (countChar '\r' content : Int) - countCRLF content
    if crlf_count ≥ lf_count ∧ crlf_count ≥ cr_count then ['\r', '\n']
    else if lf_count ≥ cr_count then ['\n']
    else if cr_count > 0 then ['\r']
    else linesep

/-- Modelled from the spec (§4.3), for the refinement claim about
`detect_line_ending`: count CRLF, then remaining lone LF, then remaining lone
CR, and return the style with the highest count, ties broken in the fixed
preference order CRLF ≥ LF ≥ CR; empty content yields the platform default. -/
def detect_line_ending_spec (linesep : PyStr) (content : PyStr) : PyStr :=
  if content = [] then linesep
  else
    let crlf_count : Int := countCRLF content
    let lf_count : Int := (countChar '\n' content : Int) - countCRLF content
    let cr_count : Int := (countChar '\r' content : Int) - countCRLF content
    if crlf_count ≥ lf_count ∧ crlf_count ≥ cr_count then ['\r', '\n']
    else if lf_count ≥ cr_count then ['\n']
    else ['\r']

/-- Python `s.replace(c, r)` for a single-character pattern `c`. -/
def replaceChar (c : Char) (r : PyStr) : PyStr → PyStr
  | [] => []
  | x :: xs => (if x = c then r else [x]) ++ replaceChar c r xs

/-- Python `s.replace('\r\n', '\n')`: left-to-right, non-overlapping. -/
def replaceCRLF : PyStr → PyStr
  | '\r' :: '\n' :: rest => '\n' :: replaceCRLF rest
  | c :: rest => c :: replaceCRLF rest
  | [] => []

/-- `normalize_line_endings(content, target_ending)` (source lines 77-86). -/
def normalize_line_endings (content : PyStr) (target_ending : PyStr) : PyStr :=
  let c1 := replaceCRLF content
  let c2 := replaceChar '\r' ['\n'] c1
  if target_ending ≠ ['\n'] then replaceChar '\n' target_ending c2 else c2

/-- The line-boundary characters of Python `str.splitlines`. -/
def isLineBoundary (c : Char) : Bool :=
  c = '\n' ∨ c = '\r' ∨ c = Char.ofNat 0x0b ∨ c = Char.ofNat 0x0c ∨
  c = Char.ofNat 0x1c ∨ c = Char.ofNat 0x1d ∨ c = Char.ofNat 0x1e ∨
  c = Char.ofNat 0x85 ∨ c = Char.ofNat 0x2028 ∨ c = Char.ofNat 0x2029

/-- Worker for Python `str.splitlines(keepends=True)`; `acc` is the reversed
prefix of the line being accumulated. -/
def splitAux : PyStr → PyStr → List PyStr
  | [], acc => if acc = [] then [] else [acc.reverse]
  | '\r' :: '\n' :: rest, acc => (acc.reverse ++ ['\r', '\n']) :: splitAux rest []
  | c :: rest, acc =>
    if isLineBoundary c then (acc.reverse ++ [c]) :: splitAux rest []
    else splitAux rest (c :: acc)

/-- Python `s.splitlines(keepends=True)`. -/
def splitlinesKeepends (s : PyStr) : List PyStr := splitAux s []

/-- Python `line.endswith(c)` for a single character. -/
def endsWithChar (c : Char) : PyStr → Bool
  | [] => false
  | [x] => x = c
  | _ :: xs => endsWithChar c xs

/-- `lines_with_preserved_endings(content, original_ending)` (source lines 88-98). -/
def lines_with_preserved_endings (content : PyStr) (original_ending : PyStr) : List PyStr :=
  let normalized := normalize_line_endings content ['\n']
  let lines := splitlinesKeepends normalized
  if original_ending ≠ ['\n'] then
    lines.map fun line =>
      if endsWithChar '\n' line then replaceChar '\n' original_ending line else line
  else lines

/-- Whitespace characters stripped by Python `str.strip()` (the ASCII ones;
paths in this development use none of the exotic Unicode whitespace). -/
def isPyWsp (c : Char) : Bool :=
  c = ' ' ∨ c = '\t' ∨ c = '\n' ∨ c = '\r' ∨ c = Char.ofNat 0x0b ∨ c = Char.ofNat 0x0c

/-- Python `s.strip()`. -/
def pyStrip (s : PyStr) : PyStr :=
  ((s.dropWhile isPyWsp).reverse.dropWhile isPyWsp).reverse

/-- One hunk record of the parser: the raw `@@` header line and the body lines
following it, exactly as the source's `{'header': line, 'lines': []}` dict. -/
structure Hunk where
  header : PyStr
  lines : List PyStr
deriving DecidableEq

/-- One per-file patch record of the parser (the source's `current` dict). -/
structure FilePatch where
  old : PyStr
  new : Option PyStr
  hunks : List Hunk
  patch_line_ending : PyStr
deriving DecidableEq

/-- Python `current['hunks'][-1]['lines'].append(line)`. -/
def appendToLastHunk : List Hunk → PyStr → List Hunk
  | [], _ => []
  | [h], l => [{ h with lines := h.lines ++ [l] }]
  | h :: hs, l => h :: appendToLastHunk hs l

/-- Python `s.startswith(pre)`. -/
def startsWithChars : PyStr → PyStr → Bool
  | [], _ => true
  | _, [] => false
  | p :: ps, c :: cs => p = c ∧ startsWithChars ps cs

/-- Append the open `current` record, if any, to the accumulated patches. -/
def closeCurrent (acc : List FilePatch) : Option FilePatch → List FilePatch
  | some c => acc ++ [c]
  | none => acc

/-- The `for line in lines` loop of `parse_patch` (source lines 120-133). -/
def parseLoop (ple : PyStr) : List PyStr → Option FilePatch → List FilePatch → List FilePatch
  | [], cur, acc => closeCurrent acc cur
  | l :: rest, cur, acc =>
    if startsWithChars (pyS "--- ") l then
      parseLoop ple rest (some ⟨pyStrip (l.drop 4), none, [], ple⟩) (closeCurrent acc cur)
    else if startsWithChars (pyS "+++ ") l ∧ cur.isSome then
      parseLoop ple rest (cur.map fun c => { c with new := some (pyStrip (l.drop 4)) }) acc
    else if startsWithChars (pyS "@@") l ∧ cur.isSome then
      parseLoop ple rest (cur.map fun c => { c with hunks := c.hunks ++ [⟨l, []⟩] }) acc
    else
      match cur with
      | some c =>
        if c.hunks.isEmpty then parseLoop ple rest (some c) acc
        else parseLoop ple rest (some { c with hunks := appendToLastHunk c.hunks l }) acc
      | none => parseLoop ple rest none acc

/-- `parse_patch` (source lines 100-134), on already-loaded patch text. -/
def parse_patch (linesep : PyStr) (content : PyStr) : List FilePatch :=
  let patch_line_ending := detect_line_ending linesep content
  let normalized := normalize_line_endings content ['\n']
  let lines := splitlinesKeepends normalized
  parseLoop patch_line_ending lines none []

/-- `strip_prefix` (source lines 136-138): `re.sub(r'^[ab]/', '', filename)`. -/
def strip_prefix : PyStr → PyStr
  | 'a' :: '/' :: rest => rest
  | 'b' :: '/' :: rest => rest
  | s => s

/-- Maximal run of ASCII digits (the regex fragment `\d+` / `\d*`). -/
def takeDigits : PyStr → PyStr × PyStr
  | [] => ([], [])
  | c :: rest =>
    if c.isDigit then
      let p := takeDigits rest
      (c :: p.1, p.2)
    else ([], c :: rest)

/-- Python `int` on a run of decimal digits. -/
def digitsToNat (s : PyStr) : Nat :=
  s.foldl (fun n c => n * 10 + (c.toNat - '0'.toNat)) 0

/-- Strip a literal prefix, or fail. -/
def dropPrefixChars : PyStr → PyStr → Option PyStr
  | [], s => some s
  | _, [] => none
  | p :: ps, c :: cs => if p = c then dropPrefixChars ps cs else none

/-- `re.match(r'@@ -(\d+),?(\d*) \+(\d+),?(\d*) @@', header)` (source line 158).
Returns the four groups; groups 2 and 4 are `none` when they matched the empty
string.  The deterministic maximal-munch reading is equivalent to the regex:
`\d+`/`\d*` are maximal digit runs and `,?` consumes a comma exactly when one
is present, since every backtracking alternative leaves a digit or comma where
a literal space is required. -/
def parseHunkHeader (s : PyStr) : Option (Nat × Option Nat × Nat × Option Nat) :=
  match dropPrefixChars (pyS "@@ -") s with
  | none => none
  | some s1 =>
    let p1 := takeDigits s1
    if p1.1 = [] then none else
    let q2 : PyStr × PyStr :=
      match p1.2 with
      | ',' :: r => takeDigits r
      | _ => ([], p1.2)
    match dropPrefixChars (pyS " +") q2.2 with
    | none => none
    | some s4 =>
      let p3 := takeDigits s4
      if p3.1 = [] then none else
      let q4 : PyStr × PyStr :=
        match p3.2 with
        | ',' :: r => takeDigits r
        | _ => ([], p3.2)
      match dropPrefixChars (pyS " @@") q4.2 with
      | none => none
      | some _ =>
        some (digitsToNat p1.1,
              if q2.1 = [] then none else some (digitsToNat q2.1),
              digitsToNat p3.1,
              if q4.1 = [] then none else some (digitsToNat q4.1))

/-- The `ValueError`s raised by `apply_hunks` (source lines 160, 218, 220, 222). -/
inductive ApplyError where
  | invalidHunkHeader (header : PyStr)
  | negativeIndex (index : Int)
  | indexBeyondEnd (index : Int) (fileLen : Nat)
  | removeBeyondEnd (index : Int) (oldCount : Nat) (fileLen : Nat)
deriving DecidableEq

/-- The out-of-range errors of the bounds check (claim vocabulary
`ApplyError(OutOfRange)`), as opposed to a malformed hunk header. -/
def ApplyError.isOutOfRange : ApplyError → Bool
  | .invalidHunkHeader _ => false
  | _ => true

/-- The local state of one `apply_hunks` call.  `original_lines` is the
borrowed input list; `patched` starts as the copy `original_lines[:]`
(source line 153) and is the only list the loop mutates. -/
structure ApplyState where
  original_lines : List PyStr
  patched : List PyStr
  offset : Int
deriving DecidableEq

/-- Re-terminate one stripped patch body line with the target line ending
(source lines 196-200 and 207-211): replace a trailing `\n`, else keep as is. -/
def retermLine (le : PyStr) (l : PyStr) : PyStr :=
  if endsWithChar '\n' l then l.dropLast ++ le else l

/-- Build `new_lines` for one hunk (source lines 187-214): drop `-` lines,
keep `+` and space lines re-terminated, silently ignore anything else. -/
def buildNewLines (le : PyStr) : List PyStr → List PyStr :=
  List.filterMap fun l =>
    match l with
    | '-' :: _ => none
    | '+' :: rest => some (retermLine le rest)
    | ' ' :: rest => some (retermLine le rest)
    | _ => none

/-- One iteration of the `for hunk in hunks` loop of `apply_hunks`
(source lines 156-267): header parse, index computation, bounds checks,
splice, and offset update.  The context-integrity loop (lines 224-258)
produces only warnings and is modelled separately. -/
def applyHunkStep (le : PyStr) (st : ApplyState) (h : Hunk) : Except ApplyError ApplyState :=
  match parseHunkHeader h.header with
  | none => .error (.invalidHunkHeader h.header)
  | some (old_start, ocOpt, _new_start, _ncOpt) =>
    let old_count := ocOpt.getD 1
    let index : Int := (if old_start = 0 then 0 else (old_start : Int) - 1) + st.offset
    let new_lines := buildNewLines le h.lines
    if index < 0 then .error (.negativeIndex index)
    else if index > (st.patched.length : Int) then .error (.indexBeyondEnd index st.patched.length)
    else if 0 < old_count ∧ index + (old_count : Int) > (st.patched.length : Int) then
      .error (.removeBeyondEnd index old_count st.patched.length)
    else
      .ok { st with
            patched := st.patched.take index.toNat ++ new_lines ++
                       st.patched.drop (index.toNat + old_count),
            offset := st.offset + new_lines.length - old_count }

/-- The hunk loop of `apply_hunks`, threading the explicit state. -/
def applyHunksLoop (le : PyStr) (st : ApplyState) : List Hunk → Except ApplyError ApplyState
  | [] => .ok st
  | h :: rest =>
    match applyHunkStep le st h with
    | .error e => .error e
    | .ok st1 => applyHunksLoop le st1 rest

/-- `apply_hunks(original_lines, hunks, line_ending)` (source lines 140-269).
The initial state performs the copy `patched = original_lines[:]`. -/
def apply_hunks (original_lines : List PyStr) (hunks : List Hunk) (line_ending : PyStr) :
    Except ApplyError (List PyStr) :=
  (applyHunksLoop line_ending ⟨original_lines, original_lines, 0⟩ hunks).map (·.patched)

/-- The inner `while hunk_line_idx < len(hunk['lines'])` loop of the context
check (source lines 233-256), at one original line `actual`.  Returns the
remaining hunk lines, an optional mismatch (normalized expected/actual pair),
and whether the inner loop ended with `break` (`true`) or by exhausting the
hunk lines (`false`, which breaks the outer loop). -/
def ctxInner (actual : PyStr) : List PyStr → List PyStr × Option (PyStr × PyStr) × Bool
  | [] => ([], none, false)
  | hl :: rest =>
    if hl.head? = some ' ' ∨ hl.head? = some '-' then
      let expected_normalized := normalize_line_endings (hl.drop 1) ['\n']
      let actual_normalized := normalize_line_endings actual ['\n']
      (rest,
       if expected_normalized ≠ actual_normalized then
         some (expected_normalized, actual_normalized)
       else none,
       true)
    else if hl.head? = some '+' then ctxInner actual rest
    else (rest, none, true)

/-- The outer `for i in range(old_count)` loop of the context check
(source lines 225-258), collecting the mismatch warnings it would print. -/
def ctxOuter (patched : List PyStr) (index : Nat) : Nat → Nat → List PyStr →
    List (Nat × PyStr × PyStr)
  | _, 0, _ => []
  | i, n + 1, hls =>
    if patched.length ≤ index + i then []
    else
      match ctxInner (patched.getD (index + i) []) hls with
      | (rest, w, true) =>
        (match w with
         | some p => [(index + i + 1, p.1, p.2)]
         | none => []) ++ ctxOuter patched index (i + 1) n rest
      | (_, _, false) => []

/-- The warnings the context-integrity check of `apply_hunks` would emit for
one hunk: mismatch positions (1-based) with normalized expected/actual lines.
The check never alters the splice and never raises. -/
def contextMismatchWarnings (patched : List PyStr) (index : Nat) (old_count : Nat)
    (hunkLines : List PyStr) : List (Nat × PyStr × PyStr) :=
  ctxOuter patched index 0 old_count hunkLines

/-- Line-ending discipline of one output line: it either ends with the target
terminator `S`, or it ends with no CR/LF terminator at all (as an unterminated
final line does). -/
def GoodLine (S l : PyStr) : Prop :=
  S <:+ l ∨ (¬ (['\n'] <:+ l) ∧ ¬ (['\r'] <:+ l))

/-- Shape of a line produced by `splitlinesKeepends` on CR-free input: a body
of non-boundary characters followed by an empty terminator, a `\n`, or a single
non-CR, non-LF boundary character. -/
def RawShape (l : PyStr) : Prop :=
  ∃ body term, l = body ++ term ∧ (∀ c ∈ body, isLineBoundary c = false) ∧
    (term = [] ∨ term = ['\n'] ∨
     ∃ c, isLineBoundary c = true ∧ c ≠ '\n' ∧ c ≠ '\r' ∧ term = [c])

/-- All body lines of all hunks in the list have the split-line shape. -/
def HunksRaw (hs : List Hunk) : Prop :=
  ∀ h ∈ hs, ∀ l ∈ h.lines, RawShape l

/-- Per-file outcome of `main`'s loop (source lines 292-342), file writing
abstracted away: `skipped` for a missing original, `errored` for a caught
apply failure, `patched` for success, `crashed` for the uncaught `TypeError`
of `strip_prefix(None)` when a patch entry has no `+++` line (line 294). -/
inductive Outcome where
  | skipped
  | errored (e : ApplyError)
  | patched (lines : List PyStr)
  | crashed
deriving DecidableEq

/-- The body of `main`'s loop for one patch entry whose `new` field is present
(source lines 293-329): resolve the original, detect its line ending, split it
and apply the hunks; apply errors are caught here.  `fs` models the file
system (stripped old path to file content). -/
def processOne (linesep : PyStr) (fs : PyStr → Option PyStr) (p : FilePatch) : Outcome :=
  let old_file := strip_prefix p.old
  match fs old_file with
  | none => .skipped
  | some original_content =>
    let line_ending := detect_line_ending linesep original_content
    let original_lines := lines_with_preserved_endings original_content line_ending
    match apply_hunks original_lines p.hunks line_ending with
    | .error e => .errored e
    | .ok patched_lines => .patched patched_lines

/-- `main`'s `for p in patches` loop (source lines 292-342): each entry yields
one outcome and processing continues with the next entry; only a missing
`+++` path (whose `strip_prefix(None)` raises outside the `try`) aborts the
whole run. -/
def processPatches (linesep : PyStr) (fs : PyStr → Option PyStr) : List FilePatch → List Outcome
  | [] => []
  | p :: rest =>
    if p.new.isSome then processOne linesep fs p :: processPatches linesep fs rest
    else [.crashed]

/-! ### Counting lemmas for line-ending detection -/

theorem countCRLF_le_countLF : ∀ s : PyStr, countCRLF s ≤ countChar '\n' s := by
  intro s
  induction s using countCRLF.induct with
  | case1 rest ih => simp [countCRLF, countChar]; omega
  | case2 x rest hne ih => simp [countCRLF, countChar]; split <;> omega
  | case3 => simp [countCRLF, countChar]

theorem countCRLF_le_countCR : ∀ s : PyStr, countCRLF s ≤ countChar '\r' s := by
  intro s
  induction s using countCRLF.induct with
  | case1 rest ih => simp [countCRLF, countChar]; omega
  | case2 x rest hne ih => simp [countCRLF, countChar]; split <;> omega
  | case3 => simp [countCRLF, countChar]

theorem countChar_eq_zero_of_not_mem {c : Char} {s : PyStr} (h : c ∉ s) :
    countChar c s = 0 := by
  induction s with
  | nil => rfl
  | cons x xs ih =>
    simp only [List.mem_cons, not_or] at h
    simp [countChar, Ne.symm h.1, ih h.2]

/-! ### C6: line-ending detection refines the spec's majority-vote contract -/

/-- C6: `detect_line_ending` counts CRLF, then remaining lone LF, then
remaining lone CR (each excluding CRLF occurrences), and returns the style
with the highest count, ties broken CRLF ≥ LF ≥ CR; empty content returns the
platform default.  Stated as a refinement: the source function agrees with
`detect_line_ending_spec`, written from the spec's words, on every input. -/
theorem detect_line_ending_refines_spec :
    ∀ (linesep content : PyStr),
      detect_line_ending linesep content = detect_line_ending_spec linesep content := by
  intro linesep content
  unfold detect_line_ending detect_line_ending_spec
  by_cases hc : content = []
  · simp [hc]
  · have h1 := countCRLF_le_countLF content
    have h2 := countCRLF_le_countCR content
    simp only [hc, if_false]
    split_ifs with b1 b2 b3 <;> try rfl
    exfalso
    omega

/-! ### C10: non-empty terminator-free content yields CRLF, not the default -/

/-- C10: for every non-empty input with no CR and no LF characters, detection
returns CRLF rather than the platform default; the platform-default fallback
is only ever taken for empty input (for non-empty input the result does not
depend on the platform default at all). -/
theorem detect_no_terminators_gives_crlf :
    (∀ (linesep content : PyStr), content ≠ [] →
      (∀ c ∈ content, c ≠ '\r' ∧ c ≠ '\n') →
      detect_line_ending linesep content = ['\r', '\n'])
    ∧ (∀ (linesep1 linesep2 content : PyStr), content ≠ [] →
      detect_line_ending linesep1 content = detect_line_ending linesep2 content) := by
  constructor
  · intro linesep content hne hfree
    have hn : countChar '\n' content = 0 :=
      countChar_eq_zero_of_not_mem fun h => (hfree _ h).2 rfl
    have hr : countChar '\r' content = 0 :=
      countChar_eq_zero_of_not_mem fun h => (hfree _ h).1 rfl
    have hk := countCRLF_le_countLF content
    unfold detect_line_ending
    simp only [hne, if_false]
    have hk0 : countCRLF content = 0 := by omega
    simp [hn, hr, hk0]
  · intro linesep1 linesep2 content hne
    have h1 := countCRLF_le_countLF content
    have h2 := countCRLF_le_countCR content
    unfold detect_line_ending
    simp only [hne, if_false]
    split_ifs with b1 b2 b3 <;> first | rfl | omega

/-- Witness for C10 at concrete inputs: `"abc"` has no terminators and detects
as CRLF; for non-empty `"x\ry"` the result is independent of the platform
default. -/
theorem detect_no_terminators_gives_crlf_witness :
    detect_line_ending (pyS "\n") (pyS "abc") = ['\r', '\n'] ∧
    detect_line_ending (pyS "\n") (pyS "x\ry") =
      detect_line_ending (pyS "\r\n") (pyS "x\ry") :=
  ⟨detect_no_terminators_gives_crlf.1 (pyS "\n") (pyS "abc") (by decide) (by decide),
   detect_no_terminators_gives_crlf.2 (pyS "\n") (pyS "\r\n") (pyS "x\ry") (by decide)⟩

/-! ### Characterization of one hunk-application step -/

theorem applyHunkStep_ok_of_bounds (le : PyStr) (st : ApplyState) (h : Hunk)
    (os : Nat) (ocO : Option Nat) (ns : Nat) (ncO : Option Nat)
    (hp : parseHunkHeader h.header = some (os, ocO, ns, ncO))
    (h1 : ¬ ((if os = 0 then 0 else (os : Int) - 1) + st.offset < 0))
    (h2 : ¬ ((if os = 0 then 0 else (os : Int) - 1) + st.offset > (st.patched.length : Int)))
    (h3 : ¬ (0 < ocO.getD 1 ∧
      (if os = 0 then 0 else (os : Int) - 1) + st.offset + (ocO.getD 1 : Int) >
        (st.patched.length : Int))) :
    applyHunkStep le st h = .ok { st with
      patched :=
        st.patched.take ((if os = 0 then 0 else (os : Int) - 1) + st.offset).toNat ++
        buildNewLines le h.lines ++
        st.patched.drop (((if os = 0 then 0 else (os : Int) - 1) + st.offset).toNat + ocO.getD 1),
      offset := st.offset + (buildNewLines le h.lines).length - ocO.getD 1 } := by
  unfold applyHunkStep
  rw [hp]
  simp only [if_neg h1, if_neg h2, if_neg h3]

theorem applyHunkStep_error_iff (le : PyStr) (st : ApplyState) (h : Hunk)
    (os : Nat) (ocO : Option Nat) (ns : Nat) (ncO : Option Nat)
    (hp : parseHunkHeader h.header = some (os, ocO, ns, ncO)) :
    (∃ e, applyHunkStep le st h = .error e ∧ e.isOutOfRange = true) ↔
      ((if os = 0 then 0 else (os : Int) - 1) + st.offset < 0 ∨
       (if os = 0 then 0 else (os : Int) - 1) + st.offset > (st.patched.length : Int) ∨
       (0 < ocO.getD 1 ∧
        (if os = 0 then 0 else (os : Int) - 1) + st.offset + (ocO.getD 1 : Int) >
          (st.patched.length : Int))) := by
  unfold applyHunkStep
  rw [hp]
  constructor
  · rintro ⟨e, he, -⟩
    by_cases c1 : (if os = 0 then 0 else (os : Int) - 1) + st.offset < 0
    · exact Or.inl c1
    by_cases c2 : (if os = 0 then 0 else (os : Int) - 1) + st.offset > (st.patched.length : Int)
    · exact Or.inr (Or.inl c2)
    by_cases c3 : 0 < ocO.getD 1 ∧
        (if os = 0 then 0 else (os : Int) - 1) + st.offset + (ocO.getD 1 : Int) >
          (st.patched.length : Int)
    · exact Or.inr (Or.inr c3)
    · simp only [if_neg c1, if_neg c2, if_neg c3] at he
      exact absurd he (by simp)
  · intro hc
    by_cases c1 : (if os = 0 then 0 else (os : Int) - 1) + st.offset < 0
    · refine ⟨.negativeIndex ((if os = 0 then 0 else (os : Int) - 1) + st.offset), ?_, rfl⟩
      simp only [if_pos c1]
    by_cases c2 : (if os = 0 then 0 else (os : Int) - 1) + st.offset > (st.patched.length : Int)
    · refine ⟨.indexBeyondEnd ((if os = 0 then 0 else (os : Int) - 1) + st.offset)
        st.patched.length, ?_, rfl⟩
      simp only [if_neg c1, if_pos c2]
    by_cases c3 : 0 < ocO.getD 1 ∧
        (if os = 0 then 0 else (os : Int) - 1) + st.offset + (ocO.getD 1 : Int) >
          (st.patched.length : Int)
    · refine ⟨.removeBeyondEnd ((if os = 0 then 0 else (os : Int) - 1) + st.offset)
        (ocO.getD 1) st.patched.length, ?_, rfl⟩
      simp only [if_neg c1, if_neg c2, if_pos c3]
    · rcases hc with hc | hc | hc
      · exact absurd hc c1
      · exact absurd hc c2
      · exact absurd hc c3

theorem applyHunkStep_ok_shape {le : PyStr} {st st1 : ApplyState} {h : Hunk}
    (hok : applyHunkStep le st h = .ok st1) :
    ∃ i k, st1.patched = st.patched.take i ++ buildNewLines le h.lines ++ st.patched.drop k ∧
      st1.original_lines = st.original_lines := by
  unfold applyHunkStep at hok
  rcases hm : parseHunkHeader h.header with - | ⟨os, ocO, ns, ncO⟩
  · rw [hm] at hok
    simp at hok
  · rw [hm] at hok
    dsimp only at hok
    set idx : Int := (if os = 0 then 0 else (os : Int) - 1) + st.offset with hidx
    split_ifs at hok with c1 c2 c3
    all_goals simp only [Except.ok.injEq, reduceCtorEq] at hok
    subst hok
    exact ⟨idx.toNat, idx.toNat + ocO.getD 1, rfl, rfl⟩

/-! ### C3: insertion index and cumulative offset -/

/-- C3: each hunk is applied at zero-based index
`(oldStart == 0 ? 0 : oldStart - 1) + cumulativeOffset`, and afterwards the
cumulative offset grows by `len(replacement) - oldCount`; consequently, for
two hunks the second one is applied against the state whose offset is exactly
the net line delta of the first (second conjunct: the two-hunk run factors
through the state produced by the first step). -/
theorem hunk_index_and_offset_update :
    (∀ (le : PyStr) (st : ApplyState) (h : Hunk) (os : Nat) (ocO : Option Nat)
        (ns : Nat) (ncO : Option Nat),
      parseHunkHeader h.header = some (os, ocO, ns, ncO) →
      ¬ ((if os = 0 then 0 else (os : Int) - 1) + st.offset < 0) →
      ¬ ((if os = 0 then 0 else (os : Int) - 1) + st.offset > (st.patched.length : Int)) →
      ¬ (0 < ocO.getD 1 ∧
          (if os = 0 then 0 else (os : Int) - 1) + st.offset + (ocO.getD 1 : Int) >
            (st.patched.length : Int)) →
      applyHunkStep le st h = .ok { st with
        patched :=
          st.patched.take ((if os = 0 then 0 else (os : Int) - 1) + st.offset).toNat ++
          buildNewLines le h.lines ++
          st.patched.drop
            (((if os = 0 then 0 else (os : Int) - 1) + st.offset).toNat + ocO.getD 1),
        offset := st.offset + (buildNewLines le h.lines).length - ocO.getD 1 })
    ∧ (∀ (orig : List PyStr) (hA hB : Hunk) (le : PyStr) (st1 : ApplyState),
      applyHunkStep le ⟨orig, orig, 0⟩ hA = .ok st1 →
      apply_hunks orig [hA, hB] le =
        (applyHunkStep le st1 hB).map (fun s => s.patched)) := by
  constructor
  · exact fun le st h os ocO ns ncO hp h1 h2 h3 =>
      applyHunkStep_ok_of_bounds le st h os ocO ns ncO hp h1 h2 h3
  · intro orig hA hB le st1 hstep
    unfold apply_hunks applyHunksLoop
    rw [hstep]
    cases hr : applyHunkStep le st1 hB with
    | error e => simp [applyHunksLoop, hr, Except.map]
    | ok st2 => simp [applyHunksLoop, hr, Except.map]

/-- Witness for C3: a first hunk that deletes line 1 leaves offset `-1`, and
the two-hunk run factors through that state, so the second hunk's header
position 2 resolves to index 0. -/
theorem hunk_index_and_offset_update_witness :
    applyHunkStep (pyS "\n") ⟨[pyS "a\n", pyS "b\n"], [pyS "a\n", pyS "b\n"], 0⟩
        ⟨pyS "@@ -1 +0,0 @@", [pyS "-a\n"]⟩ =
      .ok ⟨[pyS "a\n", pyS "b\n"], [pyS "b\n"], -1⟩ ∧
    apply_hunks [pyS "a\n", pyS "b\n"]
        [⟨pyS "@@ -1 +0,0 @@", [pyS "-a\n"]⟩, ⟨pyS "@@ -2 +1 @@", [pyS "-b\n", pyS "+c\n"]⟩]
        (pyS "\n") =
      (applyHunkStep (pyS "\n") ⟨[pyS "a\n", pyS "b\n"], [pyS "b\n"], -1⟩
        ⟨pyS "@@ -2 +1 @@", [pyS "-b\n", pyS "+c\n"]⟩).map (fun s => s.patched) :=
  ⟨(hunk_index_and_offset_update.1 (pyS "\n")
      ⟨[pyS "a\n", pyS "b\n"], [pyS "a\n", pyS "b\n"], 0⟩
      ⟨pyS "@@ -1 +0,0 @@", [pyS "-a\n"]⟩ 1 none 0 (some 0) rfl
      (by decide) (by decide) (by decide)).trans (by rfl),
   hunk_index_and_offset_update.2 [pyS "a\n", pyS "b\n"]
      ⟨pyS "@@ -1 +0,0 @@", [pyS "-a\n"]⟩ ⟨pyS "@@ -2 +1 @@", [pyS "-b\n", pyS "+c\n"]⟩
      (pyS "\n") ⟨[pyS "a\n", pyS "b\n"], [pyS "b\n"], -1⟩ rfl⟩

/-! ### C4: the bounds check fails exactly on out-of-range hunks -/

/-- C4: for a hunk whose header parses, the step fails with an out-of-range
error if and only if the computed index is negative, or exceeds the current
patched length, or old-count > 0 and index + old-count exceeds the current
patched length; when none of these hold the step succeeds. -/
theorem bounds_check_out_of_range_iff :
    ∀ (le : PyStr) (st : ApplyState) (h : Hunk) (os : Nat) (ocO : Option Nat)
        (ns : Nat) (ncO : Option Nat),
      parseHunkHeader h.header = some (os, ocO, ns, ncO) →
      (((∃ e, applyHunkStep le st h = .error e ∧ e.isOutOfRange = true) ↔
        ((if os = 0 then 0 else (os : Int) - 1) + st.offset < 0 ∨
         (if os = 0 then 0 else (os : Int) - 1) + st.offset > (st.patched.length : Int) ∨
         (0 < ocO.getD 1 ∧
          (if os = 0 then 0 else (os : Int) - 1) + st.offset + (ocO.getD 1 : Int) >
            (st.patched.length : Int))))
       ∧ (¬ ((if os = 0 then 0 else (os : Int) - 1) + st.offset < 0 ∨
             (if os = 0 then 0 else (os : Int) - 1) + st.offset > (st.patched.length : Int) ∨
             (0 < ocO.getD 1 ∧
              (if os = 0 then 0 else (os : Int) - 1) + st.offset + (ocO.getD 1 : Int) >
                (st.patched.length : Int))) →
          ∃ st1, applyHunkStep le st h = .ok st1)) := by
  intro le st h os ocO ns ncO hp
  refine ⟨applyHunkStep_error_iff le st h os ocO ns ncO hp, ?_⟩
  intro hn
  exact ⟨_, applyHunkStep_ok_of_bounds le st h os ocO ns ncO hp
    (fun hc => hn (Or.inl hc)) (fun hc => hn (Or.inr (Or.inl hc)))
    (fun hc => hn (Or.inr (Or.inr hc)))⟩

/-- Witness for C4: header `@@ -5 +5 @@` against an empty file gives index 4,
which is beyond the end, so the bounds check fails with an out-of-range
error. -/
theorem bounds_check_out_of_range_iff_witness :
    ∃ e, applyHunkStep (pyS "\n") ⟨[], [], 0⟩ ⟨pyS "@@ -5 +5 @@", []⟩ = .error e ∧
      e.isOutOfRange = true :=
  ((bounds_check_out_of_range_iff (pyS "\n") ⟨[], [], 0⟩ ⟨pyS "@@ -5 +5 @@", []⟩
    5 none 5 none rfl).1).mpr (by decide)

/-! ### C5: context mismatches are warnings, never failures -/

/-- C5: for every hunk whose header parses and whose bounds check passes, the
step succeeds and splices the replacement block; nothing in its success
depends on whether the hunk's context/deletion lines match the stored lines
(second conjunct: whether the step fails is determined by the state's offset
and length alone, never by the stored line contents that the context check
compares). -/
theorem context_mismatch_only_warns :
    (∀ (le : PyStr) (st : ApplyState) (h : Hunk) (os : Nat) (ocO : Option Nat)
        (ns : Nat) (ncO : Option Nat),
      parseHunkHeader h.header = some (os, ocO, ns, ncO) →
      ¬ ((if os = 0 then 0 else (os : Int) - 1) + st.offset < 0) →
      ¬ ((if os = 0 then 0 else (os : Int) - 1) + st.offset > (st.patched.length : Int)) →
      ¬ (0 < ocO.getD 1 ∧
          (if os = 0 then 0 else (os : Int) - 1) + st.offset + (ocO.getD 1 : Int) >
            (st.patched.length : Int)) →
      applyHunkStep le st h = .ok { st with
        patched :=
          st.patched.take ((if os = 0 then 0 else (os : Int) - 1) + st.offset).toNat ++
          buildNewLines le h.lines ++
          st.patched.drop
            (((if os = 0 then 0 else (os : Int) - 1) + st.offset).toNat + ocO.getD 1),
        offset := st.offset + (buildNewLines le h.lines).length - ocO.getD 1 })
    ∧ (∀ (le : PyStr) (h : Hunk) (st st2 : ApplyState),
      st.offset = st2.offset → st.patched.length = st2.patched.length →
      ((∃ e, applyHunkStep le st h = .error e) ↔
       (∃ e, applyHunkStep le st2 h = .error e))) := by
  constructor
  · exact fun le st h os ocO ns ncO hp h1 h2 h3 =>
      applyHunkStep_ok_of_bounds le st h os ocO ns ncO hp h1 h2 h3
  · intro le h st st2 hoff hlen
    unfold applyHunkStep
    cases hm : parseHunkHeader h.header with
    | none => simp
    | some v =>
      obtain ⟨os, ocO, ns, ncO⟩ := v
      dsimp only
      rw [hoff, hlen]
      split_ifs <;> simp

/-- Witness for C5: the hunk's context line says `y` but the file holds `x`;
the context check records a mismatch warning, yet the step still succeeds and
splices the replacement block. -/
theorem context_mismatch_only_warns_witness :
    contextMismatchWarnings [pyS "x\n"] 0 1 [pyS " y\n"] ≠ [] ∧
    applyHunkStep (pyS "\n") ⟨[pyS "x\n"], [pyS "x\n"], 0⟩ ⟨pyS "@@ -1 +1 @@\n", [pyS " y\n"]⟩ =
      .ok ⟨[pyS "x\n"], [pyS "y\n"], 0⟩ :=
  ⟨by decide,
   (context_mismatch_only_warns.1 (pyS "\n") ⟨[pyS "x\n"], [pyS "x\n"], 0⟩
      ⟨pyS "@@ -1 +1 @@\n", [pyS " y\n"]⟩ 1 none 1 none rfl
      (by decide) (by decide) (by decide)).trans (by rfl)⟩

/-! ### C9: the applicator never mutates its input -/

theorem applyHunksLoop_preserves_original :
    ∀ (le : PyStr) (st : ApplyState) (hs : List Hunk) (st1 : ApplyState),
      applyHunksLoop le st hs = .ok st1 → st1.original_lines = st.original_lines := by
  intro le st hs
  induction hs generalizing st with
  | nil =>
    intro st1 h1
    unfold applyHunksLoop at h1
    injection h1 with h1
    rw [h1]
  | cons hd tl ih =>
    intro st1 h1
    unfold applyHunksLoop at h1
    cases hstep : applyHunkStep le st hd with
    | error e =>
      rw [hstep] at h1
      dsimp only at h1
      exact absurd h1 (by simp)
    | ok st2 =>
      rw [hstep] at h1
      dsimp only at h1
      obtain ⟨-, -, -, horig⟩ := applyHunkStep_ok_shape hstep
      exact (ih st2 st1 h1).trans horig

/-- C9: the hunk loop only ever rewrites the `patched` copy made at entry
(`patched = original_lines[:]`); the borrowed `original_lines` list is
unchanged by every run, and the result is the separately owned `patched`
list of the final state. -/
theorem applicator_preserves_input :
    (∀ (le : PyStr) (st : ApplyState) (hs : List Hunk) (st1 : ApplyState),
      applyHunksLoop le st hs = .ok st1 → st1.original_lines = st.original_lines)
    ∧ (∀ (orig : List PyStr) (hs : List Hunk) (le : PyStr) (out : List PyStr),
      apply_hunks orig hs le = .ok out →
      ∃ st1, applyHunksLoop le ⟨orig, orig, 0⟩ hs = .ok st1 ∧
        st1.original_lines = orig ∧ out = st1.patched) := by
  refine ⟨applyHunksLoop_preserves_original, ?_⟩
  intro orig hs le out hout
  unfold apply_hunks at hout
  cases hrun : applyHunksLoop le ⟨orig, orig, 0⟩ hs with
  | error e => rw [hrun] at hout; exact absurd hout (by simp [Except.map])
  | ok st1 =>
    rw [hrun] at hout
    simp only [Except.map, Except.ok.injEq] at hout
    exact ⟨st1, rfl, applyHunksLoop_preserves_original le _ hs st1 hrun, hout.symm⟩

/-- Witness for C9: a concrete run that rewrites the file's single line still
reports the untouched original line list in its final state. -/
theorem applicator_preserves_input_witness :
    ∃ st1, applyHunksLoop (pyS "\n") ⟨[pyS "a\n"], [pyS "a\n"], 0⟩
        [⟨pyS "@@ -1 +1 @@\n", [pyS "-a\n", pyS "+b\n"]⟩] = .ok st1 ∧
      st1.original_lines = [pyS "a\n"] ∧ [pyS "b\n"] = st1.patched :=
  applicator_preserves_input.2 [pyS "a\n"] [⟨pyS "@@ -1 +1 @@\n", [pyS "-a\n", pyS "+b\n"]⟩]
    (pyS "\n") [pyS "b\n"] rfl

/-! ### C1: where a malformed hunk header is detected and what it aborts -/

/-- Counterexample to C1 as stated: a patch whose first file entry carries the
malformed header `@@ bogus @@` still parses completely (two file records), and
the second file entry is processed to a successful patch — the error is
per-file, not fatal to the run. -/
theorem malformed_hunk_header_counterexample :
    (parse_patch (pyS "\n")
      (pyS "--- a/f1\n+++ b/f1\n@@ bogus @@\n--- a/f2\n+++ b/f2\n@@ -1 +1 @@\n-old\n+new\n")).length = 2 ∧
    processPatches (pyS "\n")
      (fun n => if n = pyS "f1" then some (pyS "x\n")
                else if n = pyS "f2" then some (pyS "old\n") else none)
      (parse_patch (pyS "\n")
        (pyS "--- a/f1\n+++ b/f1\n@@ bogus @@\n--- a/f2\n+++ b/f2\n@@ -1 +1 @@\n-old\n+new\n")) =
      [.errored (.invalidHunkHeader (pyS "@@ bogus @@\n")), .patched [pyS "new\n"]] :=
  ⟨by rfl, by decide⟩

/-- C1 (amended): a `@@` line that does not match the numeric header pattern
causes the hunk applicator (not the parser) to fail with the invalid-header
error when that file's hunks are applied; the orchestration loop catches the
per-file error and continues, so subsequent file entries of the patch are
still processed. -/
theorem malformed_hunk_header_scope :
    (∀ (le : PyStr) (st : ApplyState) (h : Hunk),
      parseHunkHeader h.header = none →
      applyHunkStep le st h = .error (.invalidHunkHeader h.header))
    ∧ (∀ (linesep : PyStr) (fs : PyStr → Option PyStr) (p : FilePatch)
        (rest : List FilePatch),
      p.new.isSome = true →
      processPatches linesep fs (p :: rest) =
        processOne linesep fs p :: processPatches linesep fs rest) := by
  constructor
  · intro le st h hp
    unfold applyHunkStep
    rw [hp]
  · intro linesep fs p rest hnew
    unfold processPatches
    rw [if_pos hnew]
    cases rest <;> rfl

/-- Witness for C1 (amended): the bogus header errors at the apply step, and
an entry with a `+++` path never blocks the processing of later entries. -/
theorem malformed_hunk_header_scope_witness :
    applyHunkStep (pyS "\n") ⟨[], [], 0⟩ ⟨pyS "@@ bogus @@\n", []⟩ =
      .error (.invalidHunkHeader (pyS "@@ bogus @@\n")) ∧
    processPatches (pyS "\n") (fun _ => none)
        ({ old := pyS "a/f1", new := some (pyS "b/f1"), hunks := [],
           patch_line_ending := pyS "\n" } :: []) =
      processOne (pyS "\n") (fun _ => none)
        { old := pyS "a/f1", new := some (pyS "b/f1"), hunks := [],
          patch_line_ending := pyS "\n" } ::
        processPatches (pyS "\n") (fun _ => none) [] :=
  ⟨malformed_hunk_header_scope.1 (pyS "\n") ⟨[], [], 0⟩ ⟨pyS "@@ bogus @@\n", []⟩ rfl,
   malformed_hunk_header_scope.2 (pyS "\n") (fun _ => none) _ [] rfl⟩

/-! ### Equations for building the replacement block -/

theorem buildNewLines_nil (le : PyStr) : buildNewLines le [] = [] := rfl

theorem buildNewLines_cons_del (le : PyStr) (d : PyStr) (rest : List PyStr) :
    buildNewLines le (('-' :: d) :: rest) = buildNewLines le rest := rfl

theorem buildNewLines_cons_add (le : PyStr) (a : PyStr) (rest : List PyStr) :
    buildNewLines le (('+' :: a) :: rest) = retermLine le a :: buildNewLines le rest := rfl

theorem buildNewLines_cons_ctx (le : PyStr) (a : PyStr) (rest : List PyStr) :
    buildNewLines le ((' ' :: a) :: rest) = retermLine le a :: buildNewLines le rest := rfl

theorem buildNewLines_length_of_only_ctx_add {le : PyStr} {hls : List PyStr}
    (hall : ∀ l ∈ hls, (∃ r, l = ' ' :: r) ∨ (∃ r, l = '+' :: r)) :
    (buildNewLines le hls).length = hls.length := by
  induction hls with
  | nil => rfl
  | cons hd tl ih =>
    rcases hall hd (List.mem_cons_self hd tl) with ⟨r, rfl⟩ | ⟨r, rfl⟩ <;>
      simp [buildNewLines_cons_ctx, buildNewLines_cons_add,
        ih fun l hl => hall l (List.mem_cons_of_mem _ hl)]

theorem ctx_filterMap_sublist {le : PyStr} {hls : List PyStr}
    (hall : ∀ l ∈ hls, (∃ r, l = ' ' :: r) ∨ (∃ r, l = '+' :: r)) :
    (hls.filterMap fun l =>
      match l with
      | ' ' :: r => some (retermLine le r)
      | _ => none).Sublist (buildNewLines le hls) := by
  induction hls with
  | nil => exact List.Sublist.refl _
  | cons hd tl ih =>
    have ih2 := ih fun l hl => hall l (List.mem_cons_of_mem _ hl)
    rcases hall hd (List.mem_cons_self hd tl) with ⟨r, rfl⟩ | ⟨r, rfl⟩
    · rw [buildNewLines_cons_ctx]
      exact List.Sublist.cons₂ _ ih2
    · rw [buildNewLines_cons_add]
      exact List.Sublist.cons _ ih2

theorem ctx_len_add_countP {le : PyStr} {hls : List PyStr}
    (hall : ∀ l ∈ hls, (∃ r, l = ' ' :: r) ∨ (∃ r, l = '+' :: r)) :
    (hls.filterMap fun l =>
      match l with
      | ' ' :: r => some (retermLine le r)
      | _ => none).length + (hls.countP fun l => l.head? = some '+') = hls.length := by
  induction hls with
  | nil => rfl
  | cons hd tl ih =>
    have ih2 := ih fun l hl => hall l (List.mem_cons_of_mem _ hl)
    rcases hall hd (List.mem_cons_self hd tl) with ⟨r, rfl⟩ | ⟨r, rfl⟩ <;>
      simp [List.filterMap_cons, List.countP_cons] <;> omega

theorem apply_hunks_single (orig : List PyStr) (h : Hunk) (le : PyStr) (st1 : ApplyState)
    (hstep : applyHunkStep le ⟨orig, orig, 0⟩ h = .ok st1) :
    apply_hunks orig [h] le = .ok st1.patched := by
  unfold apply_hunks applyHunksLoop
  rw [hstep]
  dsimp only
  unfold applyHunksLoop
  rfl

/-! ### C7: additive hunks -/

/-- Counterexample to C7 as stated: a hunk with only Context and Addition
lines that adds one line, whose bounds check passes, whose context line `b`
does not match the original line `a`: the applicator still splices the
patch's context line, so the original line `a\n` is absent from the output
even though the length is L + N. -/
theorem additive_hunk_counterexample :
    (∀ l ∈ [pyS " b\n", pyS "+c\n"], l.head? = some ' ' ∨ l.head? = some '+') ∧
    apply_hunks [pyS "a\n"] [⟨pyS "@@ -1 +1,2 @@\n", [pyS " b\n", pyS "+c\n"]⟩] (pyS "\n") =
      .ok [pyS "b\n", pyS "c\n"] ∧
    pyS "a\n" ∉ [pyS "b\n", pyS "c\n"] :=
  ⟨by decide, by rfl, by decide⟩

theorem baseIdx_cast (os : Nat) :
    (if os = 0 then 0 else (os : Int) - 1) + (0 : Int) =
      ((if os = 0 then 0 else os - 1 : Nat) : Int) := by
  cases os with
  | zero => simp
  | succ n =>
    simp only [Nat.succ_ne_zero, if_false]
    push_cast
    omega

/-- C7 (amended): for a hunk of only Context and Addition lines whose
old-count equals its number of context lines and whose context lines, after
re-termination, equal the original lines they overlay, applying the hunk
succeeds, the output length is L + N (N the number of Addition lines), and
the original lines survive, in order, as a sublist of the output. -/
theorem additive_hunk_roundtrip :
    ∀ (le : PyStr) (orig : List PyStr) (h : Hunk) (os : Nat) (ocO : Option Nat)
        (ns : Nat) (ncO : Option Nat),
      parseHunkHeader h.header = some (os, ocO, ns, ncO) →
      (∀ l ∈ h.lines, (∃ r, l = ' ' :: r) ∨ (∃ r, l = '+' :: r)) →
      (if os = 0 then 0 else os - 1) + ocO.getD 1 ≤ orig.length →
      (h.lines.filterMap fun l =>
          match l with
          | ' ' :: r => some (retermLine le r)
          | _ => none) =
        (orig.drop (if os = 0 then 0 else os - 1)).take (ocO.getD 1) →
      apply_hunks orig [h] le = .ok
        (orig.take (if os = 0 then 0 else os - 1) ++ buildNewLines le h.lines ++
          orig.drop ((if os = 0 then 0 else os - 1) + ocO.getD 1)) ∧
      (orig.take (if os = 0 then 0 else os - 1) ++ buildNewLines le h.lines ++
          orig.drop ((if os = 0 then 0 else os - 1) + ocO.getD 1)).length =
        orig.length + (h.lines.countP fun l => l.head? = some '+') ∧
      List.Sublist orig
        (orig.take (if os = 0 then 0 else os - 1) ++ buildNewLines le h.lines ++
          orig.drop ((if os = 0 then 0 else os - 1) + ocO.getD 1)) := by
  intro le orig h os ocO ns ncO hp hall hbound hctx
  set base := (if os = 0 then 0 else os - 1) with hbase
  set oc := ocO.getD 1 with hoc
  have hidx : (if os = 0 then 0 else (os : Int) - 1) + (0 : Int) = (base : Int) := by
    rw [hbase]; exact baseIdx_cast os
  have h1 : ¬ ((if os = 0 then 0 else (os : Int) - 1) + (0 : Int) < 0) := by
    rw [hidx]; omega
  have h2 : ¬ ((if os = 0 then 0 else (os : Int) - 1) + (0 : Int) > (orig.length : Int)) := by
    rw [hidx]; omega
  have h3 : ¬ (0 < oc ∧
      (if os = 0 then 0 else (os : Int) - 1) + (0 : Int) + (oc : Int) > (orig.length : Int)) := by
    rw [hidx]; omega
  have hstep := applyHunkStep_ok_of_bounds le ⟨orig, orig, 0⟩ h os ocO ns ncO hp h1 h2 h3
  have happly := apply_hunks_single orig h le _ hstep
  dsimp only at happly
  rw [hidx, Int.toNat_natCast] at happly
  have hlenb : (buildNewLines le h.lines).length = h.lines.length :=
    buildNewLines_length_of_only_ctx_add hall
  have hctxlen : ((orig.drop base).take oc).length = oc := by
    simp only [List.length_take, List.length_drop]
    omega
  have hfmlen : (h.lines.filterMap fun l =>
      match l with
      | ' ' :: r => some (retermLine le r)
      | _ => none).length = oc := by rw [hctx]; exact hctxlen
  have hcount := @ctx_len_add_countP le h.lines hall
  have hmain : orig =
      orig.take base ++ ((orig.drop base).take oc ++ orig.drop (base + oc)) := by
    conv_lhs => rw [← List.take_append_drop base orig]
    congr 1
    conv_lhs => rw [← List.take_append_drop oc (orig.drop base)]
    rw [List.drop_drop]
  refine ⟨happly, ?_, ?_⟩
  · simp only [List.length_append, List.length_take, List.length_drop, hlenb]
    omega
  · have hmain2 : orig =
        (orig.take base ++ (orig.drop base).take oc) ++ orig.drop (base + oc) := by
      rw [List.append_assoc]
      exact hmain
    have hA : List.Sublist ((orig.take base ++ (orig.drop base).take oc) ++
          orig.drop (base + oc))
        ((orig.take base ++ buildNewLines le h.lines) ++ orig.drop (base + oc)) :=
      List.Sublist.append
        (List.Sublist.append (List.Sublist.refl _) (hctx ▸ ctx_filterMap_sublist hall))
        (List.Sublist.refl _)
    rw [← hmain2] at hA
    exact hA

/-- Witness for C7 (amended), Scenario-B style: the context line matches the
original, one line is added, the original line survives. -/
theorem additive_hunk_roundtrip_witness :
    apply_hunks [pyS "a\n"] [⟨pyS "@@ -1 +1,2 @@\n", [pyS " a\n", pyS "+c\n"]⟩] (pyS "\n") =
      .ok [pyS "a\n", pyS "c\n"] ∧
    List.Sublist [pyS "a\n"] [pyS "a\n", pyS "c\n"] ∧
    ([pyS "a\n", pyS "c\n"] : List PyStr).length = 1 + 1 := by
  have h := additive_hunk_roundtrip (pyS "\n") [pyS "a\n"]
      ⟨pyS "@@ -1 +1,2 @@\n", [pyS " a\n", pyS "+c\n"]⟩ 1 none 1 (some 2)
      rfl
      (by
        intro l hl
        rcases List.mem_cons.mp hl with rfl | hl2
        · exact Or.inl ⟨pyS "a\n", rfl⟩
        · rcases List.mem_cons.mp hl2 with rfl | h3
          · exact Or.inr ⟨pyS "c\n", rfl⟩
          · cases h3)
      (by decide) (by rfl)
  refine ⟨h.1.trans (by rfl), ?_, by rfl⟩
  have hs := h.2.2
  exact (show ([pyS "a\n"].take (if 1 = 0 then 0 else 1 - 1) ++
      buildNewLines (pyS "\n") [pyS " a\n", pyS "+c\n"] ++
      [pyS "a\n"].drop ((if 1 = 0 then 0 else 1 - 1) + (none : Option Nat).getD 1)) =
    [pyS "a\n", pyS "c\n"] from rfl) ▸ hs

/-! ### C8: appending after an unterminated final line -/

theorem endsWithChar_concat (c : Char) : ∀ (xs : PyStr), endsWithChar c (xs ++ [c]) = true := by
  intro xs
  induction xs with
  | nil => simp [endsWithChar]
  | cons x tl ih =>
    cases tl with
    | nil => simp [endsWithChar]
    | cons y ys => exact ih

/-- C8: for an original file whose last line `t` has no trailing terminator,
any hunk whose header parses, whose bounds check passes, and whose body
consumes that line — as a Context line, or as a Deletion that the hunk
re-adds as an Addition — yields a successful application whose output
contains `t` correctly terminated with the target line ending.  The hunk's
position, old-count, and surrounding body lines (e.g. leading context) are
unconstrained. -/
theorem unterminated_last_line_appended :
    ∀ (le : PyStr) (origInit : List PyStr) (t : PyStr) (h : Hunk)
        (os : Nat) (ocO : Option Nat) (ns : Nat) (ncO : Option Nat),
      parseHunkHeader h.header = some (os, ocO, ns, ncO) →
      ((' ' :: (t ++ ['\n'])) ∈ h.lines ∨
       (('-' :: (t ++ ['\n'])) ∈ h.lines ∧ ('+' :: (t ++ ['\n'])) ∈ h.lines)) →
      endsWithChar '\n' t = false →
      endsWithChar '\r' t = false →
      ¬ ((if os = 0 then 0 else (os : Int) - 1) + (0 : Int) < 0) →
      ¬ ((if os = 0 then 0 else (os : Int) - 1) + (0 : Int) >
          (((origInit ++ [t]).length : Nat) : Int)) →
      ¬ (0 < ocO.getD 1 ∧
          (if os = 0 then 0 else (os : Int) - 1) + (0 : Int) + (ocO.getD 1 : Int) >
            (((origInit ++ [t]).length : Nat) : Int)) →
      ∃ out, apply_hunks (origInit ++ [t]) [h] le = .ok out ∧ (t ++ le) ∈ out := by
  intro le origInit t h os ocO ns ncO hp hconsume hnoLF hnoCR h1 h2 h3
  have hstep := applyHunkStep_ok_of_bounds le ⟨origInit ++ [t], origInit ++ [t], 0⟩ h
    os ocO ns ncO hp h1 h2 h3
  have happly := apply_hunks_single _ h le _ hstep
  refine ⟨_, happly, ?_⟩
  have hr : retermLine le (t ++ ['\n']) = t ++ le := by
    unfold retermLine
    rw [if_pos (endsWithChar_concat '\n' t), List.dropLast_concat]
  have hmem : (t ++ le) ∈ buildNewLines le h.lines := by
    unfold buildNewLines
    rw [List.mem_filterMap]
    rcases hconsume with hc | ⟨-, ha⟩
    · refine ⟨' ' :: (t ++ ['\n']), hc, ?_⟩
      show some (retermLine le (t ++ ['\n'])) = some (t ++ le)
      rw [hr]
    · refine ⟨'+' :: (t ++ ['\n']), ha, ?_⟩
      show some (retermLine le (t ++ ['\n'])) = some (t ++ le)
      rw [hr]
  exact List.mem_append.mpr (Or.inl (List.mem_append.mpr (Or.inr hmem)))

/-- Witness for C8: CRLF original `a\r\nb\r\nc` with unterminated last line
`c`; an appending hunk `@@ -1,3 +1,4 @@` with two leading context lines
consumes `c` as its third context line and appends `d`; the run succeeds and
the output carries `c\r\n`. -/
theorem unterminated_last_line_appended_witness :
    ∃ out, apply_hunks [pyS "a\r\n", pyS "b\r\n", pyS "c"]
        [⟨pyS "@@ -1,3 +1,4 @@\n", [pyS " a\n", pyS " b\n", pyS " c\n", pyS "+d\n"]⟩]
        (pyS "\r\n") = .ok out ∧
      (pyS "c" ++ pyS "\r\n") ∈ out :=
  unterminated_last_line_appended (pyS "\r\n") [pyS "a\r\n", pyS "b\r\n"] (pyS "c")
    ⟨pyS "@@ -1,3 +1,4 @@\n", [pyS " a\n", pyS " b\n", pyS " c\n", pyS "+d\n"]⟩
    1 (some 3) 1 (some 4) rfl (Or.inl (by decide)) (by rfl) (by rfl)
    (by decide) (by decide) (by decide)

/-! ### C2: line-ending discipline of the applicator's output -/

theorem mem_replaceChar {b c : Char} {r s : PyStr} (h : b ∈ replaceChar c r s) :
    b ∈ r ∨ (b ∈ s ∧ b ≠ c) := by
  induction s with
  | nil => cases h
  | cons x xs ih =>
    unfold replaceChar at h
    rcases List.mem_append.mp h with h1 | h1
    · split_ifs at h1 with hx
      · exact Or.inl h1
      · rcases List.mem_singleton.mp h1 with rfl
        exact Or.inr ⟨List.mem_cons_self _ _, hx⟩
    · rcases ih h1 with h2 | ⟨h2, h3⟩
      · exact Or.inl h2
      · exact Or.inr ⟨List.mem_cons_of_mem _ h2, h3⟩

theorem no_cr_normalize (s : PyStr) : '\r' ∉ normalize_line_endings s ['\n'] := by
  unfold normalize_line_endings
  rw [if_neg (by simp)]
  intro hmem
  rcases mem_replaceChar hmem with h | ⟨-, h⟩
  · simp at h
  · exact h rfl

theorem endsWithChar_mem {c : Char} : ∀ {l : PyStr}, endsWithChar c l = true → c ∈ l := by
  intro l
  induction l with
  | nil => intro h; cases h
  | cons x tl ih =>
    cases tl with
    | nil =>
      intro h
      have hx : x = c := by simpa [endsWithChar] using h
      rw [hx]; exact List.mem_singleton_self c
    | cons y ys =>
      intro h
      exact List.mem_cons_of_mem _ (ih h)

theorem endsWithChar_append_singleton (a b : Char) :
    ∀ (xs : PyStr), endsWithChar a (xs ++ [b]) = decide (b = a) := by
  intro xs
  induction xs with
  | nil => simp [endsWithChar]
  | cons x tl ih =>
    cases tl with
    | nil => simp [endsWithChar]
    | cons y ys => exact ih

theorem singleton_suffix_iff (c : Char) (l : PyStr) :
    [c] <:+ l ↔ endsWithChar c l = true := by
  constructor
  · rintro ⟨pre, rfl⟩
    exact endsWithChar_concat c pre
  · intro hend
    induction l with
    | nil => cases hend
    | cons x tl ih =>
      cases tl with
      | nil =>
        have hx : x = c := by simpa [endsWithChar] using hend
        rw [hx]
      | cons y ys =>
        exact (ih hend).trans ⟨[x], rfl⟩

theorem goodLine_of_no_terminator {S l : PyStr}
    (hn : endsWithChar '\n' l = false) (hr : endsWithChar '\r' l = false) :
    GoodLine S l := by
  refine Or.inr ⟨?_, ?_⟩
  · intro hs
    rw [(singleton_suffix_iff _ _).mp hs] at hn
    cases hn
  · intro hs
    rw [(singleton_suffix_iff _ _).mp hs] at hr
    cases hr

theorem endsWithChar_false_of_no_boundary {l : PyStr} {a : Char}
    (hb : ∀ c ∈ l, isLineBoundary c = false) (ha : isLineBoundary a = true) :
    endsWithChar a l = false := by
  cases hend : endsWithChar a l with
  | false => rfl
  | true => rw [hb a (endsWithChar_mem hend)] at ha; cases ha

theorem rawShape_endsWith_cases {l : PyStr} (h : RawShape l) :
    (∃ body, l = body ++ ['\n'] ∧ ∀ c ∈ body, isLineBoundary c = false) ∨
    (endsWithChar '\n' l = false ∧ endsWithChar '\r' l = false) := by
  obtain ⟨body, term, rfl, hbody, hterm⟩ := h
  rcases hterm with rfl | rfl | ⟨c, hcb, hcn, hcr, rfl⟩
  · rw [List.append_nil]
    exact Or.inr ⟨endsWithChar_false_of_no_boundary hbody (by decide),
      endsWithChar_false_of_no_boundary hbody (by decide)⟩
  · exact Or.inl ⟨body, rfl, hbody⟩
  · refine Or.inr ⟨?_, ?_⟩
    · rw [endsWithChar_append_singleton]
      simpa using hcn
    · rw [endsWithChar_append_singleton]
      simpa using hcr

theorem replaceChar_append (c : Char) (r a b : PyStr) :
    replaceChar c r (a ++ b) = replaceChar c r a ++ replaceChar c r b := by
  induction a with
  | nil => rfl
  | cons x xs ih => simp [replaceChar, ih]

theorem replaceChar_of_not_mem {c : Char} {r s : PyStr} (h : c ∉ s) :
    replaceChar c r s = s := by
  induction s with
  | nil => rfl
  | cons x xs ih =>
    simp only [List.mem_cons, not_or] at h
    simp [replaceChar, Ne.symm h.1, ih h.2]

theorem retermLine_goodLine {S r : PyStr} (h : RawShape r) : GoodLine S (retermLine S r) := by
  unfold retermLine
  by_cases hend : endsWithChar '\n' r = true
  · rw [if_pos hend]
    rcases rawShape_endsWith_cases h with ⟨body, rfl, hbody⟩ | ⟨hfalse, -⟩
    · rw [List.dropLast_concat]
      exact Or.inl ⟨body, rfl⟩
    · rw [hend] at hfalse; cases hfalse
  · rw [if_neg hend]
    rcases rawShape_endsWith_cases h with ⟨body, rfl, hbody⟩ | ⟨hn, hr⟩
    · exact absurd (endsWithChar_concat '\n' body) hend
    · exact goodLine_of_no_terminator hn hr

theorem mapOrig_goodLine {S l : PyStr} (h : RawShape l) :
    GoodLine S (if endsWithChar '\n' l then replaceChar '\n' S l else l) := by
  by_cases hend : endsWithChar '\n' l = true
  · rw [if_pos hend]
    rcases rawShape_endsWith_cases h with ⟨body, rfl, hbody⟩ | ⟨hfalse, -⟩
    · have hnb : '\n' ∉ body := fun hm => by
        have := hbody _ hm
        simp [isLineBoundary] at this
      rw [replaceChar_append, replaceChar_of_not_mem hnb]
      have hsingle : replaceChar '\n' S ['\n'] = S := by
        simp [replaceChar]
      rw [hsingle]
      exact Or.inl ⟨body, rfl⟩
    · rw [hend] at hfalse; cases hfalse
  · rw [if_neg hend]
    rcases rawShape_endsWith_cases h with ⟨body, rfl, hbody⟩ | ⟨hn, hr⟩
    · exact absurd (endsWithChar_concat '\n' body) hend
    · exact goodLine_of_no_terminator hn hr

theorem rawShape_tail {x : Char} {r : PyStr} (h : RawShape (x :: r))
    (hx : isLineBoundary x = false) : RawShape r := by
  obtain ⟨body, term, heq, hbody, hterm⟩ := h
  cases body with
  | nil =>
    rcases hterm with rfl | rfl | ⟨c, hcb, hcn, hcr, rfl⟩
    · cases heq
    · injection heq with h1 h2
      rw [h1] at hx
      simp [isLineBoundary] at hx
    · injection heq with h1 h2
      rw [h1] at hx
      rw [hcb] at hx
      cases hx
  | cons b bs =>
    injection heq with h1 h2
    exact ⟨bs, term, h2, fun c hc => hbody c (List.mem_cons_of_mem _ hc), hterm⟩

theorem splitAux_rawShape : ∀ (s acc : PyStr), '\r' ∉ s →
    (∀ c ∈ acc, isLineBoundary c = false) →
    ∀ l ∈ splitAux s acc, RawShape l := by
  intro s acc
  induction s, acc using splitAux.induct with
  | case1 =>
    intro hcr hacc l hl
    simp [splitAux] at hl
  | case2 acc hne =>
    intro hcr hacc l hl
    rw [splitAux.eq_1, if_neg hne] at hl
    rcases List.mem_singleton.mp hl with rfl
    exact ⟨acc.reverse, [], (List.append_nil _).symm,
      fun c hc => hacc c (List.mem_reverse.mp hc), Or.inl rfl⟩
  | case3 rest acc ih =>
    intro hcr hacc l hl
    exact absurd (List.mem_cons_self _ _) hcr
  | case4 c rest acc hnc hbdry ih =>
    intro hcr hacc l hl
    rw [splitAux.eq_3 _ _ _ hnc, if_pos hbdry] at hl
    rcases List.mem_cons.mp hl with rfl | hl2
    · by_cases hcn : c = '\n'
      · subst hcn
        exact ⟨acc.reverse, ['\n'], rfl,
          fun d hd => hacc d (List.mem_reverse.mp hd), Or.inr (Or.inl rfl)⟩
      · have hccr : c ≠ '\r' := fun hcc => hcr (hcc ▸ List.mem_cons_self _ _)
        exact ⟨acc.reverse, [c], rfl,
          fun d hd => hacc d (List.mem_reverse.mp hd),
          Or.inr (Or.inr ⟨c, hbdry, hcn, hccr, rfl⟩)⟩
    · exact ih (fun hm => hcr (List.mem_cons_of_mem _ hm)) (by intro d hd; cases hd) l hl2
  | case5 c rest acc hnc hbdry ih =>
    intro hcr hacc l hl
    rw [splitAux.eq_3 _ _ _ hnc, if_neg hbdry] at hl
    refine ih (fun hm => hcr (List.mem_cons_of_mem _ hm)) ?_ l hl
    intro d hd
    rcases List.mem_cons.mp hd with rfl | hd2
    · cases hbb : isLineBoundary d with
      | false => rfl
      | true => exact absurd hbb hbdry
    · exact hacc d hd2

theorem buildNewLines_goodLine {S : PyStr} {hls : List PyStr}
    (hraw : ∀ l ∈ hls, RawShape l) :
    ∀ x ∈ buildNewLines S hls, GoodLine S x := by
  intro x hx
  unfold buildNewLines at hx
  rw [List.mem_filterMap] at hx
  obtain ⟨l, hl, hfl⟩ := hx
  have hrl := hraw l hl
  split at hfl
  · cases hfl
  · injection hfl with hfl
    rw [← hfl]
    exact retermLine_goodLine (rawShape_tail hrl (by decide))
  · injection hfl with hfl
    rw [← hfl]
    exact retermLine_goodLine (rawShape_tail hrl (by decide))
  · cases hfl

theorem mem_appendToLastHunk {hs : List Hunk} {l : PyStr} {h1 : Hunk}
    (hmem : h1 ∈ appendToLastHunk hs l) :
    h1 ∈ hs ∨ ∃ h0 ∈ hs, h1 = { h0 with lines := h0.lines ++ [l] } := by
  induction hs with
  | nil => cases hmem
  | cons hd tl ih =>
    cases tl with
    | nil =>
      rcases List.mem_singleton.mp hmem with rfl
      exact Or.inr ⟨hd, List.mem_singleton_self hd, rfl⟩
    | cons t2 ts =>
      rcases List.mem_cons.mp hmem with rfl | h2
      · exact Or.inl (List.mem_cons_self _ _)
      · rcases ih h2 with h3 | ⟨h0, h4, h5⟩
        · exact Or.inl (List.mem_cons_of_mem _ h3)
        · exact Or.inr ⟨h0, List.mem_cons_of_mem _ h4, h5⟩

theorem parseLoop_hunksRaw :
    ∀ (ple : PyStr) (ls : List PyStr) (cur : Option FilePatch) (acc : List FilePatch),
      (∀ l ∈ ls, RawShape l) →
      (∀ c, cur = some c → HunksRaw c.hunks) →
      (∀ p ∈ acc, HunksRaw p.hunks) →
      ∀ p ∈ parseLoop ple ls cur acc, HunksRaw p.hunks := by
  intro ple ls
  induction ls with
  | nil =>
    intro cur acc hls hcur hacc p hp
    unfold parseLoop at hp
    cases cur with
    | none => exact hacc p hp
    | some c =>
      unfold closeCurrent at hp
      rcases List.mem_append.mp hp with h1 | h1
      · exact hacc p h1
      · rcases List.mem_singleton.mp h1 with rfl
        exact hcur p rfl
  | cons l rest ih =>
    intro cur acc hls hcur hacc p hp
    have hlr : ∀ x ∈ rest, RawShape x := fun x hx => hls x (List.mem_cons_of_mem _ hx)
    have hlraw : RawShape l := hls l (List.mem_cons_self _ _)
    have hclose : ∀ q ∈ closeCurrent acc cur, HunksRaw q.hunks := by
      intro q hq
      cases cur with
      | none => exact hacc q hq
      | some c =>
        unfold closeCurrent at hq
        rcases List.mem_append.mp hq with h1 | h1
        · exact hacc q h1
        · rcases List.mem_singleton.mp h1 with rfl
          exact hcur q rfl
    unfold parseLoop at hp
    split_ifs at hp with b1 b2 b3
    · exact ih _ _ hlr (by intro c hc; injection hc with hc; rw [← hc]; intro x hx; cases hx)
        hclose p hp
    · cases cur with
      | none => simp at b2
      | some c =>
        exact ih _ _ hlr
          (by
            intro c2 hc2
            simp only [Option.map_some'] at hc2
            injection hc2 with hc2
            rw [← hc2]
            exact hcur c rfl)
          hacc p hp
    · cases cur with
      | none => simp at b3
      | some c =>
        refine ih _ _ hlr ?_ hacc p hp
        intro c2 hc2
        simp only [Option.map_some'] at hc2
        injection hc2 with hc2
        rw [← hc2]
        intro h2 hh2 x hx
        rcases List.mem_append.mp hh2 with h3 | h3
        · exact hcur c rfl h2 h3 x hx
        · rcases List.mem_singleton.mp h3 with rfl
          cases hx
    · cases cur with
      | none =>
        dsimp only at hp
        exact ih _ _ hlr (by intro c hc; cases hc) hacc p hp
      | some c =>
        dsimp only at hp
        by_cases hemp : c.hunks.isEmpty
        · rw [if_pos hemp] at hp
          exact ih _ _ hlr (by intro c2 hc2; injection hc2 with hc2; rw [← hc2]; exact hcur c rfl)
            hacc p hp
        · rw [if_neg hemp] at hp
          refine ih _ _ hlr ?_ hacc p hp
          intro c2 hc2
          injection hc2 with hc2
          rw [← hc2]
          intro h2 hh2 x hx
          rcases mem_appendToLastHunk hh2 with h3 | ⟨h0, h4, h5⟩
          · exact hcur c rfl h2 h3 x hx
          · rw [h5] at hx
            rcases List.mem_append.mp hx with h6 | h6
            · exact hcur c rfl h0 h4 x h6
            · rcases List.mem_singleton.mp h6 with rfl
              exact hlraw

theorem parse_patch_hunksRaw :
    ∀ (linesep txt : PyStr) (p : FilePatch), p ∈ parse_patch linesep txt →
      HunksRaw p.hunks := by
  intro linesep txt p hp
  unfold parse_patch at hp
  refine parseLoop_hunksRaw _ _ none [] ?_ (by intro c hc; cases hc)
    (by intro q hq; cases hq) p hp
  intro l hl
  exact splitAux_rawShape _ [] (no_cr_normalize txt) (by intro c hc; cases hc) l hl

theorem lines_preserved_goodLine :
    ∀ (content S : PyStr), ∀ l ∈ lines_with_preserved_endings content S, GoodLine S l := by
  intro content S l hl
  unfold lines_with_preserved_endings at hl
  have hshape : ∀ x ∈ splitlinesKeepends (normalize_line_endings content ['\n']), RawShape x :=
    fun x hx => splitAux_rawShape _ [] (no_cr_normalize content) (by intro c hc; cases hc) x hx
  by_cases hS : S ≠ ['\n']
  · rw [if_pos hS] at hl
    rcases List.mem_map.mp hl with ⟨x, hx, rfl⟩
    exact mapOrig_goodLine (hshape x hx)
  · rw [if_neg hS] at hl
    have hSeq : S = ['\n'] := not_not.mp hS
    rcases rawShape_endsWith_cases (hshape l hl) with ⟨body, rfl, hbody⟩ | ⟨hn, hr⟩
    · rw [hSeq]
      exact Or.inl ⟨body, rfl⟩
    · exact goodLine_of_no_terminator hn hr

theorem applyHunksLoop_goodLine :
    ∀ (S : PyStr) (hs : List Hunk) (st st1 : ApplyState),
      (∀ h ∈ hs, ∀ l ∈ h.lines, RawShape l) →
      (∀ l ∈ st.patched, GoodLine S l) →
      applyHunksLoop S st hs = .ok st1 →
      ∀ l ∈ st1.patched, GoodLine S l := by
  intro S hs
  induction hs with
  | nil =>
    intro st st1 _ hst hrun
    unfold applyHunksLoop at hrun
    injection hrun with hrun
    rw [← hrun]
    exact hst
  | cons hd tl ih =>
    intro st st1 hraw hst hrun
    unfold applyHunksLoop at hrun
    cases hstep : applyHunkStep S st hd with
    | error e =>
      rw [hstep] at hrun
      dsimp only at hrun
      exact absurd hrun (by simp)
    | ok st2 =>
      rw [hstep] at hrun
      dsimp only at hrun
      obtain ⟨i, k, hpatch, -⟩ := applyHunkStep_ok_shape hstep
      have hst2 : ∀ l ∈ st2.patched, GoodLine S l := by
        rw [hpatch]
        intro l hl
        rcases List.mem_append.mp hl with h1 | h1
        · rcases List.mem_append.mp h1 with h2 | h2
          · exact hst l (List.mem_of_mem_take h2)
          · exact buildNewLines_goodLine (hraw hd (List.mem_cons_self _ _)) l h2
        · exact hst l (List.mem_of_mem_drop h1)
      exact ih st2 st1 (fun h hh => hraw h (List.mem_cons_of_mem _ hh)) hst2 hrun

/-- Counterexample to C2 as stated: original `a\r\nb` (unterminated last
line) detects as CRLF; after applying a hunk the output still contains the
line `b`, which does not use terminator CRLF — the output is not "fully
uniform" in terminator style. -/
theorem line_ending_uniformity_counterexample :
    detect_line_ending (pyS "\n") (pyS "a\r\nb") = pyS "\r\n" ∧
    lines_with_preserved_endings (pyS "a\r\nb") (pyS "\r\n") = [pyS "a\r\n", pyS "b"] ∧
    apply_hunks [pyS "a\r\n", pyS "b"] [⟨pyS "@@ -1 +1 @@\n", [pyS "-a\n", pyS "+c\n"]⟩]
      (pyS "\r\n") = .ok [pyS "c\r\n", pyS "b"] ∧
    ¬ (pyS "\r\n" <:+ pyS "b") :=
  ⟨by rfl, by rfl, by rfl, by decide⟩

/-- C2 (amended): the replacement block drops Deletion lines and retains
Context and Addition lines re-terminated with the target ending (first three
conjuncts); and for an original file whose detected style is S and any parsed
patch entry, every line of the applicator's output either ends with S or
carries no CR/LF terminator at all (as an unterminated final line does). -/
theorem applicator_line_ending_discipline :
    (∀ (le : PyStr) (d : PyStr) (rest : List PyStr),
      buildNewLines le (('-' :: d) :: rest) = buildNewLines le rest)
    ∧ (∀ (le : PyStr) (a : PyStr) (rest : List PyStr),
      buildNewLines le (('+' :: a) :: rest) = retermLine le a :: buildNewLines le rest)
    ∧ (∀ (le : PyStr) (a : PyStr) (rest : List PyStr),
      buildNewLines le ((' ' :: a) :: rest) = retermLine le a :: buildNewLines le rest)
    ∧ (∀ (linesep content patchTxt : PyStr) (p : FilePatch) (out : List PyStr),
      p ∈ parse_patch linesep patchTxt →
      apply_hunks (lines_with_preserved_endings content (detect_line_ending linesep content))
          p.hunks (detect_line_ending linesep content) = .ok out →
      ∀ l ∈ out, GoodLine (detect_line_ending linesep content) l) := by
  refine ⟨buildNewLines_cons_del, buildNewLines_cons_add, buildNewLines_cons_ctx, ?_⟩
  intro linesep content patchTxt p out hp hap l hl
  unfold apply_hunks at hap
  cases hrun : applyHunksLoop (detect_line_ending linesep content)
      ⟨lines_with_preserved_endings content (detect_line_ending linesep content),
       lines_with_preserved_endings content (detect_line_ending linesep content), 0⟩
      p.hunks with
  | error e => rw [hrun] at hap; exact absurd hap (by simp [Except.map])
  | ok st1 =>
    rw [hrun] at hap
    simp only [Except.map, Except.ok.injEq] at hap
    rw [← hap] at hl
    exact applyHunksLoop_goodLine (detect_line_ending linesep content) p.hunks _ st1
      (parse_patch_hunksRaw linesep patchTxt p hp)
      (fun x hx => lines_preserved_goodLine content _ x hx) hrun l hl

/-- Witness for C2 (amended): a CRLF original patched by an LF-style patch;
the newly inserted line comes out CRLF-terminated. -/
theorem applicator_line_ending_discipline_witness :
    GoodLine (detect_line_ending (pyS "\n") (pyS "a\r\nb\r\n")) (pyS "x\r\n") :=
  applicator_line_ending_discipline.2.2.2 (pyS "\n") (pyS "a\r\nb\r\n")
    (pyS "--- a/f\n+++ b/f\n@@ -1 +1,2 @@\n a\n+x\n")
    ⟨pyS "a/f", some (pyS "b/f"),
     [⟨pyS "@@ -1 +1,2 @@\n", [pyS " a\n", pyS "+x\n"]⟩], pyS "\n"⟩
    [pyS "a\r\n", pyS "x\r\n", pyS "b\r\n"]
    (by decide) (by rfl) (pyS "x\r\n") (by decide)
